import Mathlib

/-!
Verification of the content-pipeline state machine of the
`ai-medium-article-planner` repository.

The repository holds two variants of the controller:
* the simple variant (`src/App.tsx` with `src/services/geminiService.ts`),
  which drafts posts and reviews them without scoring or finalization; and
* the scored variant (the unnamed source file holding the second `App`
  component together with `PostCard`), which additionally scores drafts,
  ranks them, and finalizes a selected post through expansion, per-goal
  image generation and sanitization.

Both controllers are `async` functions whose only effects are `setState`
calls on a single `AppState` value and awaited external model calls.  The
embedding makes the external calls explicit oracle inputs and represents a
run of a controller by the list of states it publishes (one entry per
`setState`), in order.  The scored variant's service module is not part of
the sources; the operations it provides are modelled from the spec where
needed and are marked as such.
-/

namespace Planner

/-! ## Data model (src/types.ts) -/

/-- Status enum of `BlogPost.status` in `src/types.ts`. -/
inductive PostStatus
  | pending
  | generating
  | completed
  | error
deriving DecidableEq, Repr, Inhabited

/-- `ExpandedGoal` from `src/types.ts`. -/
structure ExpandedGoal where
  title : String
  content : String
  imagePrompt : String
  imageUrl : Option String := none
deriving DecidableEq, Repr, Inhabited

/-- `BlogPost` from `src/types.ts`. -/
structure BlogPost where
  id : String
  topic : String
  twist : String
  title : String
  summary : String
  goals : List String
  expandedGoals : Option (List ExpandedGoal) := none
  conclusion : String
  imageUrl : Option String := none
  score : Option Int := none
  status : PostStatus
deriving DecidableEq, Repr, Inhabited

/-- The `step` enum of `AppState` in `src/types.ts`. -/
inductive Step
  | idle
  | generating_topics
  | generating_content
  | review
  | finalizing
  | published
deriving DecidableEq, Repr, Inhabited

/-- The `progress` record of `AppState`.  The numeric fields are modelled as
rationals; every value the controllers store in them is exactly
representable, so no floating-point rounding is involved in any claim. -/
structure ProgressInfo where
  current : ℚ
  total : ℚ
  message : String
deriving DecidableEq, Repr, Inhabited

/-- `AppState` from `src/types.ts`. -/
structure AppState where
  step : Step
  posts : List BlogPost
  selectedPostId : Option String
  progress : ProgressInfo
  error : Option String
deriving DecidableEq, Repr, Inhabited

/-- `INITIAL_STATE` from both `App` components. -/
def INITIAL_STATE : AppState :=
  { step := .idle
    posts := []
    selectedPostId := none
    progress := { current := 0, total := 0, message := "" }
    error := none }

/-! ## Content generation client (src/services/geminiService.ts) -/

/-- JavaScript string interpolation of a possibly-`undefined` value:
`undefined` prints as the literal text `undefined`. -/
def jsStr : Option String → String
  | some s => s
  | none => "undefined"

/-- UTF-8 byte sequence of a code point, as `encodeURIComponent` emits it. -/
def utf8Bytes (n : Nat) : List Nat :=
  if n < 128 then [n]
  else if n < 2048 then [192 + n / 64, 128 + n % 64]
  else if n < 65536 then [224 + n / 4096, 128 + (n / 64) % 64, 128 + n % 64]
  else [240 + n / 262144, 128 + (n / 4096) % 64, 128 + (n / 64) % 64, 128 + n % 64]

/-- Upper-case hexadecimal digit. -/
def hexDigit (n : Nat) : Char :=
  if n < 10 then Char.ofNat (48 + n) else Char.ofNat (55 + n)

/-- Characters `encodeURIComponent` leaves unescaped. -/
def isUnreservedURIChar (c : Char) : Bool :=
  c.isAlpha || c.isDigit ||
    [Char.ofNat 45, Char.ofNat 95, Char.ofNat 46, Char.ofNat 33,
     Char.ofNat 126, Char.ofNat 42, Char.ofNat 39,
     Char.ofNat 40, Char.ofNat 41].contains c

/-- Percent-escape of one byte. -/
def percentByte (b : Nat) : List Char :=
  [Char.ofNat 37, hexDigit (b / 16), hexDigit (b % 16)]

/-- JavaScript `encodeURIComponent`. -/
def encodeURIComponent (s : String) : String :=
  String.mk (s.data.foldr
    (fun c acc =>
      if isUnreservedURIChar c then c :: acc
      else ((utf8Bytes c.toNat).map percentByte).foldr (· ++ ·) [] ++ acc)
    [])

/-- The deterministic placeholder image reference returned when image
generation fails (`generateClaymationImage`, catch branch). -/
def picsumPlaceholder (id : String) : String :=
  "https://picsum.photos/seed/" ++ encodeURIComponent id ++ "/800/450?grayscale"

/-- One inline-data part of a model response, as extracted by
`generateClaymationImage` on success. -/
structure ImagePart where
  mimeType : String
  data : String
deriving DecidableEq, Repr, Inhabited

/-- The prompt `generateClaymationImage` builds from the post
(`src/services/geminiService.ts`). -/
def claymationPrompt (post : BlogPost) : String :=
  "Generate an image.\n    Create a highly detailed, artistic claymation style image for a blog post titled \"" ++
  post.title ++
  "\".\n    \n    **Concept:** The image must visualize the abstract architectural twist: \"" ++
  post.twist ++
  "\".\n    \n    **Visual Metaphors to explore (Pick one based on the twist):**\n    - \"Agents as Microservices\": Clay robots tangled in strings (representing dependency hell).\n    - \"Emergent Intelligence\": Clay ants building a complex digital cathedral.\n    - \"Quantum/Observer\": A clay figure looking at a box, and the box changing shape.\n    - \"Tech Debt\": A beautiful clay futuristic tower built on a crumbling clay foundation.\n\n    **Style:** Polymer clay texture, stop-motion animation aesthetic, cinematic studio lighting, shallow depth of field, 4k detail.\n    **Mood:** Whimsical but intellectual.\n    Do not include text in the image.\n  "

/-- `generateClaymationImage` from `src/services/geminiService.ts`.  The
outcome of the external call is an input: `some part` is the first
inline-data part found in the response, `none` covers both a rejected call
and a response without image data.  The function never fails: the `none`
case is the caught-error branch returning the deterministic placeholder
keyed by the post's id. -/
def generateClaymationImage (post : BlogPost) (outcome : Option ImagePart) : String :=
  match outcome with
  | some part => "data:" ++ part.mimeType ++ ";base64," ++ part.data
  | none => picsumPlaceholder post.id

/-- Modelled from the spec: the scored variant imports a service module that
is not under the sources; its `generateImage(post, promptOverride?)` sends
the override as the request prompt when one is given (falling back to the
claymation prompt) and degrades to the same deterministic placeholder on
failure.  The first component records the prompt sent to the model, the
second is the returned image reference. -/
def generateClaymationImageWithPrompt (post : BlogPost) (promptOverride : Option String)
    (outcome : Option ImagePart) : String × String :=
  (promptOverride.getD (claymationPrompt post),
   match outcome with
   | some part => "data:" ++ part.mimeType ++ ";base64," ++ part.data
   | none => picsumPlaceholder post.id)

/-! ## Markdown derivation -/

/-- The numbered lines of the Key Takeaways list
(`goals.map((g, i) => ...)` with 1-based numbers printed). -/
def numberedGoals : Nat → List String → List String
  | _, [] => []
  | n, g :: gs => (toString n ++ ". " ++ g) :: numberedGoals (n + 1) gs

/-- The expanded-goal subsections accumulated by the `forEach` loop of
`getMarkdownContent` in the scored variant, with 1-based numbering. -/
def goalSectionsMd : Nat → List ExpandedGoal → String
  | _, [] => ""
  | n, g :: gs =>
      "### " ++ toString n ++ ". " ++ g.title ++ "\n" ++
      "![Goal " ++ toString n ++ " Image](" ++ jsStr g.imageUrl ++ ")\n\n" ++
      g.content ++ "\n\n" ++ goalSectionsMd (n + 1) gs

/-- `getMarkdownContent` of the scored variant, as a function of the
selected post. -/
def getMarkdownOfPost (post : BlogPost) : String :=
  let md := "# " ++ post.title ++ "\n\n"
  let md := md ++ "![Main Image](" ++ jsStr post.imageUrl ++ ")\n\n"
  let md := md ++ "## Summary\n" ++ post.summary ++ "\n\n"
  let md := match post.expandedGoals with
    | some gs => md ++ goalSectionsMd 1 gs
    | none => md ++ "## Key Takeaways\n" ++
        String.intercalate "\n" (numberedGoals 1 post.goals) ++ "\n\n"
  md ++ "## Conclusion\n" ++ post.conclusion ++ "\n"

/-- `state.posts.find(p => p.id === state.selectedPostId)`: the selected
post, if any.  A `null` selection matches no post. -/
def selectedPostOf (s : AppState) : Option BlogPost :=
  match s.selectedPostId with
  | none => none
  | some sid => s.posts.find? (fun p => p.id == sid)

/-- `getMarkdownContent` of the scored variant: empty when nothing is
selected, otherwise the document derived from the selected post. -/
def getMarkdownContent (s : AppState) : String :=
  match selectedPostOf s with
  | none => ""
  | some post => getMarkdownOfPost post

/-- `getMarkdownContent` as the session-state computation it is in the
source: it reads the state and performs no `setState`, so a run returns the
document together with the untouched state. -/
def getMarkdownContentRun (s : AppState) : String × AppState :=
  (getMarkdownContent s, s)

/-- `getMarkdownContent` of the simple variant (`src/App.tsx`): the image
line interpolates the twist as alt text and the title followed by
` Image` as the reference. -/
def getMarkdownOfPostSimple (post : BlogPost) : String :=
  "# " ++ post.title ++ "\n\n![" ++ post.twist ++ "](" ++ post.title ++ " Image)\n\n## Summary\n" ++
  post.summary ++ "\n\n## Key Takeaways\n" ++
  String.intercalate "\n" (numberedGoals 1 post.goals) ++ "\n\n## Conclusion\n" ++
  post.conclusion ++ "\n"

/-! ## Oracles for the external calls -/

/-- One topic item as returned by `generateTrendingTopics` (id, topic,
twist and title; the remaining fields are reset by the controller). -/
structure TopicItem where
  id : String
  topic : String
  twist : String
  title : String
deriving DecidableEq, Repr, Inhabited

/-- The post entity materialized from one discovered topic
(`topics.map(t => ({...t, goals: [], summary: '', conclusion: '',
status: 'pending'}))`). -/
def mkInitialPost (t : TopicItem) : BlogPost :=
  { id := t.id
    topic := t.topic
    twist := t.twist
    title := t.title
    summary := ""
    goals := []
    conclusion := ""
    status := .pending }

/-- Structured result of `generatePostContent`. -/
structure DraftContent where
  summary : String
  goals : List String
  conclusion : String
deriving DecidableEq, Repr, Inhabited

/-- `{...post, ...content}`: the draft fields merged into the post. -/
def applyDraft (p : BlogPost) (c : DraftContent) : BlogPost :=
  { p with summary := c.summary, goals := c.goals, conclusion := c.conclusion }

/-- Outcomes of the three external calls issued for one post by the scored
variant's draft loop: content drafting, quality scoring (modelled from the
spec as a numeric score or a failure, its implementation being outside the
sources) and image generation (which never fails, see
`generateClaymationImage`). -/
structure PostOracle where
  draft : Except String DraftContent
  score : Except String Int
  image : Option ImagePart
deriving Inhabited

/-- Outcomes of the external calls for one post in the simple variant
(no scoring). -/
structure PostOracleSimple where
  draft : Except String DraftContent
  image : Option ImagePart
deriving Inhabited

/-- Outcomes of every external call of one run of the scored `handleStart`. -/
structure StartOracle where
  topics : Except String (List TopicItem)
  perPost : Nat → PostOracle

/-- Outcomes of every external call of one run of the simple `handleStart`. -/
structure StartOracleSimple where
  topics : Except String (List TopicItem)
  perPost : Nat → PostOracleSimple

/-- The fully processed post of the scored draft loop, for a post oracle
whose draft and score calls succeed: draft fields merged, score and image
reference set, status `completed`.  The image argument is the original
post, as in the source (the image request is issued before drafting). -/
def completePost (po : PostOracle) (p : BlogPost) : BlogPost :=
  { applyDraft p (po.draft.toOption.getD default) with
    score := some (po.score.toOption.getD 0)
    imageUrl := some (generateClaymationImage p po.image)
    status := .completed }

/-- The per-post draft/score/image processing applied to a list of posts
from index `i` on, assuming each post's oracle succeeds. -/
def processList (o : Nat → PostOracle) : Nat → List BlogPost → List BlogPost
  | _, [] => []
  | i, p :: ps => completePost (o i) p :: processList o (i + 1) ps

/-! ## Ranking (scored variant, Step D) -/

/-- The sort key of `(b.score || 0) - (a.score || 0)`: a missing score
counts as `0`. -/
def scoreKey (p : BlogPost) : Int :=
  p.score.getD 0

/-- Stable insertion of a post into a list sorted descending by score, the
inserted element being ordered before later-listed posts of equal score.
Together with `sortByScoreDesc` this is the (unique) stable descending
sort that `Array.prototype.sort` with the comparator
`(b.score || 0) - (a.score || 0)` performs. -/
def insertByScoreDesc (x : BlogPost) : List BlogPost → List BlogPost
  | [] => [x]
  | y :: ys => if scoreKey x < scoreKey y then y :: insertByScoreDesc x ys else x :: y :: ys

/-- Stable sort of the post list, descending by score. -/
def sortByScoreDesc : List BlogPost → List BlogPost
  | [] => []
  | p :: ps => insertByScoreDesc p (sortByScoreDesc ps)

/-! ## The scored `handleStart` -/

/-- Scale of the per-post progress, `10 + ((i / totalSteps) * 90)`. -/
def progAt (i n : Nat) : ℚ :=
  10 + ((i : ℚ) / (n : ℚ)) * 90

/-- Progress message of the drafting sub-step. -/
def draftingMsg (i n : Nat) (title : String) : String :=
  "Drafting post " ++ toString (i + 1) ++ "/" ++ toString n ++ ": \"" ++ title ++ "\"..."

/-- Progress message of the scoring sub-step. -/
def scoringMsg (i : Nat) : String :=
  "Scoring quality for post " ++ toString (i + 1) ++ "..."

/-- The state published by the first `setState` of either `handleStart`. -/
def startState : AppState :=
  { INITIAL_STATE with
    step := .generating_topics
    progress := { current := 0, total := 100
                  message := "Scouring the web for trending AI topics..." } }

/-- The draft loop of the scored `handleStart`: the sequence of states it
publishes from iteration `i` on, given the current state `s`, the processed
posts so far in reverse (`acc`) and the posts still to process (`todo`).
On an uncaught failure the catch branch publishes the previous state with
`step` reset to `idle` and the error message set (posts untouched); after
the last post the list is sorted by score and the review state published. -/
def loopScored (o : Nat → PostOracle) (n : Nat) :
    Nat → AppState → List BlogPost → List BlogPost → List AppState
  | _, s, acc, [] =>
      [{ s with
          step := .review
          posts := sortByScoreDesc acc.reverse
          progress := { current := 100, total := 100
                        message := "All done! Ranked by Quality Score." } }]
  | i, s, acc, p :: rest =>
      let sA := { s with progress :=
        { current := progAt i n, total := 100, message := draftingMsg i n p.title } }
      match (o i).draft with
      | .error e => [sA, { sA with step := .idle, error := some e }]
      | .ok c =>
        let sB := { sA with progress :=
          { current := progAt i n, total := 100, message := scoringMsg i } }
        match (o i).score with
        | .error e => [sA, sB, { sB with step := .idle, error := some e }]
        | .ok sc =>
          let p2 := { applyDraft p c with
            score := some sc
            imageUrl := some (generateClaymationImage p (o i).image)
            status := PostStatus.completed }
          let sC := { sB with posts := acc.reverse ++ p2 :: rest }
          sA :: sB :: sC :: loopScored o n (i + 1) sC (p2 :: acc) rest

/-- The state published by either `handleStart` once topics have arrived:
posts materialized as pending, progress at the 10% baseline. -/
def startContentState (initialPosts : List BlogPost) : AppState :=
  { startState with
    step := .generating_content
    posts := initialPosts
    progress := { current := 10, total := 100
                  message := "Topics found! Starting creative engine..." } }

/-- The states published by one run of the scored `handleStart`, in order. -/
def startTraceScored (o : StartOracle) : List AppState :=
  startState ::
    match o.topics with
    | .error e => [{ startState with step := .idle, error := some e }]
    | .ok topics =>
      let initialPosts := topics.map mkInitialPost
      startContentState initialPosts ::
        loopScored o.perPost initialPosts.length 0 (startContentState initialPosts) []
          initialPosts

/-- The state a run of the scored `handleStart` ends in. -/
def startFinalScored (o : StartOracle) : AppState :=
  (startTraceScored o).getLastD INITIAL_STATE

/-! ## The simple `handleStart` (src/App.tsx) -/

/-- Progress message of the simple variant's per-post step. -/
def generatingMsg (i n : Nat) (title : String) : String :=
  "Generating post " ++ toString (i + 1) ++ " of " ++ toString n ++ ": " ++ title ++ "..."

/-- The loop of the simple `handleStart`: each post is flipped to
`generating` and published, drafted and illustrated in parallel, then
published as `completed`; a draft failure lands in the catch branch. -/
def loopSimple (o : Nat → PostOracleSimple) (n : Nat) :
    Nat → AppState → List BlogPost → List BlogPost → List AppState
  | _, s, _, [] =>
      [{ s with
          step := .review
          progress := { current := 100, total := 100, message := "All done!" } }]
  | i, s, acc, p :: rest =>
      let pg := { p with status := PostStatus.generating }
      let sA := { s with
        posts := acc.reverse ++ pg :: rest
        progress := { current := progAt i n, total := 100
                      message := generatingMsg i n p.title } }
      match (o i).draft with
      | .error e => [sA, { sA with step := .idle, error := some e }]
      | .ok c =>
        let p2 := { applyDraft pg c with
          imageUrl := some (generateClaymationImage pg (o i).image)
          status := PostStatus.completed }
        let sB := { sA with posts := acc.reverse ++ p2 :: rest }
        sA :: sB :: loopSimple o n (i + 1) sB (p2 :: acc) rest

/-- The states published by one run of the simple `handleStart`. -/
def startTraceSimple (o : StartOracleSimple) : List AppState :=
  startState ::
    match o.topics with
    | .error e => [{ startState with step := .idle, error := some e }]
    | .ok topics =>
      let initialPosts := topics.map mkInitialPost
      startContentState initialPosts ::
        loopSimple o.perPost initialPosts.length 0 (startContentState initialPosts) []
          initialPosts

/-! ## Selection and finalization -/

/-- The `onSelect` handler of the review grid:
`setState(prev => ({ ...prev, selectedPostId: id }))`.  The update is
unconditional; no membership check is performed. -/
def selectPost (s : AppState) (id : String) : AppState :=
  { s with selectedPostId := some id }

/-- `handlePublishSetup` of the simple variant: a no-op unless a post is
selected (a JavaScript-falsy selection, `null` or the empty string, is
treated as no selection), otherwise `step` becomes `published`. -/
def handlePublishSetup (s : AppState) : AppState :=
  match s.selectedPostId with
  | none => s
  | some sid => if sid = "" then s else { s with step := .published }

/-- One expanded goal as returned by content expansion, before its image is
generated.  Modelled from the spec: `expandContent(post)` returns an
ordered list of `{title, body, imagePrompt}` records; the scored variant's
service implementation is not under the sources. -/
structure ExpandedGoalSeed where
  title : String
  content : String
  imagePrompt : String
deriving DecidableEq, Repr, Inhabited

/-- Modelled from the spec: `sanitizeContent(post)` returns partial field
overrides for the generated text fields; the scored variant's service
implementation is not under the sources. -/
structure SanitizedOverrides where
  summary : Option String := none
  goals : Option (List String) := none
  conclusion : Option String := none
  expandedGoals : Option (List ExpandedGoal) := none
deriving Inhabited

/-- `{...finalizedPost, ...sanitizedContent}`: the partial overrides merged
over the post. -/
def applySanitized (p : BlogPost) (ov : SanitizedOverrides) : BlogPost :=
  { p with
    summary := ov.summary.getD p.summary
    goals := ov.goals.getD p.goals
    conclusion := ov.conclusion.getD p.conclusion
    expandedGoals := match ov.expandedGoals with
      | some gs => some gs
      | none => p.expandedGoals }

/-- Outcomes of the external calls of one run of `handleFinalizePost`. -/
structure FinalizeOracle where
  expand : Except String (List ExpandedGoalSeed)
  images : Nat → Option ImagePart
  sanitize : Except String SanitizedOverrides

/-- The concurrent per-goal image fan-out of `handleFinalizePost`: each
expanded goal's image is requested with that goal's own `imagePrompt` as
the prompt override.  Each entry pairs the prompt sent to the model with
the goal completed by the returned image reference. -/
def attachGoalImages (post : BlogPost) (images : Nat → Option ImagePart) :
    Nat → List ExpandedGoalSeed → List (String × ExpandedGoal)
  | _, [] => []
  | i, g :: gs =>
      let r := generateClaymationImageWithPrompt post (some g.imagePrompt) (images i)
      (r.1, { title := g.title, content := g.content, imagePrompt := g.imagePrompt
              imageUrl := some r.2 }) :: attachGoalImages post images (i + 1) gs

/-- The fully finalized post of a successful `handleFinalizePost`:
expanded goals (with images) merged in, then the sanitized overrides
applied. -/
def finalizedPostOf (o : FinalizeOracle) (post : BlogPost) : BlogPost :=
  let finalGoals := (attachGoalImages post o.images 0 (o.expand.toOption.getD [])).map Prod.snd
  applySanitized { post with expandedGoals := some finalGoals } (o.sanitize.toOption.getD default)

/-- The states published by one run of `handleFinalizePost` from state `s`:
nothing when no selected post is found; otherwise the finalizing and
progress states, ending either in the catch branch (step back to `review`,
error set, posts untouched) or in the published state with exactly the
selected post replaced. -/
def handleFinalizePost (o : FinalizeOracle) (s : AppState) : List AppState :=
  match selectedPostOf s with
  | none => []
  | some post =>
    let sF := { s with
      step := .finalizing
      progress := { current := 0, total := 100
                    message := "Expanding content and generating goal images..." } }
    let sE := { sF with progress :=
      { current := 20, total := 100
        message := "Deepening architectural insights..." } }
    match o.expand with
    | .error e => [sF, sE, { sE with step := .review, error := some e }]
    | .ok seeds =>
      let sI := { sE with progress :=
        { current := 40, total := 100
          message := "Sculpting claymation visuals for each goal..." } }
      let finalGoals := (attachGoalImages post o.images 0 seeds).map Prod.snd
      let fp1 : BlogPost := { post with expandedGoals := some finalGoals }
      let sS := { sI with progress :=
        { current := 80, total := 100
          message := "Final safety and inclusivity check..." } }
      match o.sanitize with
      | .error e => [sF, sE, sI, sS, { sS with step := .review, error := some e }]
      | .ok ov =>
        let fp := applySanitized fp1 ov
        let newPosts := s.posts.map (fun p => if p.id == post.id then fp else p)
        [sF, sE, sI, sS,
         { sS with
           posts := newPosts
           step := .published
           progress := { current := 100, total := 100
                         message := "Ready for publication!" } }]

/-- The state a run of `handleFinalizePost` ends in (`s` itself when it was
a no-op). -/
def finalizeFinal (o : FinalizeOracle) (s : AppState) : AppState :=
  (handleFinalizePost o s).getLastD s

/-! ## Reachable session states -/

/-- The session states reachable through the externally triggerable
operations of either variant: the initial state, every state published
during a run of either `handleStart`, selection, every state published
during a run of `handleFinalizePost`, the simple variant's publish setup,
and reset. -/
inductive Reachable : AppState → Prop
  | init : Reachable INITIAL_STATE
  | startScored (o : StartOracle) (prev s : AppState) :
      Reachable prev → s ∈ startTraceScored o → Reachable s
  | startSimple (o : StartOracleSimple) (prev s : AppState) :
      Reachable prev → s ∈ startTraceSimple o → Reachable s
  | select (prev : AppState) (id : String) :
      Reachable prev → Reachable (selectPost prev id)
  | finalize (o : FinalizeOracle) (prev s : AppState) :
      Reachable prev → s ∈ handleFinalizePost o prev → Reachable s
  | publishSetup (prev : AppState) :
      Reachable prev → Reachable (handlePublishSetup prev)
  | reset (prev : AppState) :
      Reachable prev → Reachable INITIAL_STATE

/-! ## The derived Markdown artifact, as the spec words it

The spec describes the derived output artifact as a document with an exact
structure; the following definitions follow the spec's words element by
element, to be compared with the controller's `getMarkdownContent`. -/

/-- Spec: a level-1 heading with the title. -/
def specH1 (t : String) : String :=
  "# " ++ t ++ "\n\n"

/-- Spec: an image reference line for the post's image. -/
def specMainImageLine (img : Option String) : String :=
  "![Main Image](" ++ jsStr img ++ ")\n\n"

/-- Spec: a Summary section. -/
def specSummarySection (text : String) : String :=
  "## Summary\n" ++ text ++ "\n\n"

/-- Spec: an ordered Key Takeaways list from the goals (pre-expansion). -/
def specKeyTakeaways (goals : List String) : String :=
  "## Key Takeaways\n" ++ String.intercalate "\n" (numberedGoals 1 goals) ++ "\n\n"

/-- Spec: one level-3 subsection for the `n`-th expanded goal, containing
its own image reference and body text. -/
def specGoalSubsection : Nat × ExpandedGoal → String
  | (n, g) =>
      "### " ++ toString n ++ ". " ++ g.title ++ "\n" ++
      "![Goal " ++ toString n ++ " Image](" ++ jsStr g.imageUrl ++ ")\n\n" ++
      g.content ++ "\n\n"

/-- Spec: the level-3 subsections of all expanded goals, in order,
numbered from 1. -/
def specGoalSubsections (gs : List ExpandedGoal) : String :=
  ((List.enumFrom 1 gs).map specGoalSubsection).foldr (· ++ ·) ""

/-- Spec: a Conclusion section. -/
def specConclusionSection (text : String) : String :=
  "## Conclusion\n" ++ text ++ "\n"

/-- Spec: the derived Markdown document — heading, image reference line,
Summary, then either the Key Takeaways list (no expanded goals) or one
subsection per expanded goal, followed by the Conclusion. -/
def specMarkdownDoc (post : BlogPost) : String :=
  specH1 post.title ++
  specMainImageLine post.imageUrl ++
  specSummarySection post.summary ++
  (match post.expandedGoals with
   | none => specKeyTakeaways post.goals
   | some gs => specGoalSubsections gs) ++
  specConclusionSection post.conclusion

/-- The subsection accumulation of the controller's `forEach` loop agrees
with the spec's per-goal subsection list at every starting number. -/
theorem goalSectionsMd_eq_foldr (gs : List ExpandedGoal) :
    ∀ n, goalSectionsMd n gs =
      ((List.enumFrom n gs).map specGoalSubsection).foldr (· ++ ·) "" := by
  induction gs with
  | nil => intro n; rfl
  | cons g gs ih =>
      intro n
      simp only [goalSectionsMd, List.enumFrom, List.map, List.foldr, ih (n + 1)]
      rfl

/-- The controller's Markdown derivation produces, for every post, exactly
the document the spec describes. -/
theorem getMarkdownOfPost_eq_spec (post : BlogPost) :
    getMarkdownOfPost post = specMarkdownDoc post := by
  cases hg : post.expandedGoals with
  | none =>
      simp only [getMarkdownOfPost, specMarkdownDoc, specH1, specMainImageLine,
        specSummarySection, specKeyTakeaways, specConclusionSection, hg,
        String.append_assoc]
  | some gs =>
      simp only [getMarkdownOfPost, specMarkdownDoc, specH1, specMainImageLine,
        specSummarySection, specConclusionSection, specGoalSubsections, hg,
        ← goalSectionsMd_eq_foldr, String.append_assoc]

/-- Concrete post used by the evaluation witnesses. -/
def wPost : BlogPost :=
  { id := "post-1"
    topic := "agents"
    twist := "microservices"
    title := "T"
    summary := "S"
    goals := ["g1", "g2", "g3"]
    conclusion := "C"
    imageUrl := some "data:image/png;base64,AA"
    score := some 7
    status := .completed }

/-- Concrete review-stage state with `wPost` selected. -/
def wState : AppState :=
  { step := .review
    posts := [wPost]
    selectedPostId := some "post-1"
    progress := { current := 100, total := 100, message := "" }
    error := none }

/-- Claim C7: for every session with a selected post, the derived Markdown
document has exactly the structure the spec gives: a level-1 heading with
the post's title, an image reference line for the post's image, a Summary
section, then either an ordered Key Takeaways list from the goals (when no
expanded goals exist) or one level-3 subsection per expanded goal, each
with that goal's image reference and body text, followed by a Conclusion
section. -/
theorem markdown_has_spec_structure (s : AppState) (post : BlogPost)
    (h : selectedPostOf s = some post) :
    getMarkdownContent s = specMarkdownDoc post := by
  unfold getMarkdownContent
  rw [h]
  exact getMarkdownOfPost_eq_spec post

/-- Witness for claim C7 at a concrete selected post. -/
theorem markdown_has_spec_structure_witness :
    getMarkdownContent wState = specMarkdownDoc wPost :=
  markdown_has_spec_structure wState wPost rfl

/-- Claim C8: the Markdown derivation is a pure function of the session
state — a run returns the state unchanged, a second run on the unchanged
state yields byte-identical output, and the output depends only on the
selected post. -/
theorem markdown_derivation_pure (s : AppState) :
    (getMarkdownContentRun s).2 = s ∧
    (getMarkdownContentRun ((getMarkdownContentRun s).2)).1 = (getMarkdownContentRun s).1 ∧
    ∀ t : AppState, selectedPostOf t = selectedPostOf s →
      getMarkdownContent t = getMarkdownContent s := by
  refine ⟨rfl, rfl, ?_⟩
  intro t ht
  unfold getMarkdownContent
  rw [ht]

/-- Witness for claim C8 at a concrete state. -/
theorem markdown_derivation_pure_witness :
    (getMarkdownContentRun wState).2 = wState ∧
    getMarkdownContent wState = getMarkdownContent wState :=
  ⟨(markdown_derivation_pure wState).1,
   (markdown_derivation_pure wState).2.2 wState rfl⟩

/-! ## Properties of the stable descending sort -/

/-- Sorted descending by score key. -/
def SortedByScoreDesc (l : List BlogPost) : Prop :=
  l.Pairwise (fun a b => scoreKey b ≤ scoreKey a)

theorem insertByScoreDesc_perm (x : BlogPost) (l : List BlogPost) :
    (insertByScoreDesc x l).Perm (x :: l) := by
  induction l with
  | nil => exact List.Perm.refl _
  | cons y ys ih =>
      by_cases h : scoreKey x < scoreKey y
      · simp only [insertByScoreDesc, if_pos h]
        exact (ih.cons y).trans (List.Perm.swap x y ys)
      · simp only [insertByScoreDesc, if_neg h]
        exact List.Perm.refl _

theorem sortByScoreDesc_perm (l : List BlogPost) :
    (sortByScoreDesc l).Perm l := by
  induction l with
  | nil => exact List.Perm.refl _
  | cons p ps ih =>
      exact (insertByScoreDesc_perm p (sortByScoreDesc ps)).trans (ih.cons p)

theorem insertByScoreDesc_sorted {x : BlogPost} {l : List BlogPost}
    (h : SortedByScoreDesc l) : SortedByScoreDesc (insertByScoreDesc x l) := by
  induction l with
  | nil => simp [insertByScoreDesc, SortedByScoreDesc]
  | cons y ys ih =>
      rw [SortedByScoreDesc, List.pairwise_cons] at h
      by_cases hlt : scoreKey x < scoreKey y
      · rw [SortedByScoreDesc]
        simp only [insertByScoreDesc, if_pos hlt]
        rw [List.pairwise_cons]
        constructor
        · intro z hz
          rcases List.mem_cons.mp ((insertByScoreDesc_perm x ys).mem_iff.mp hz) with hzx | hzys
          · rw [hzx]; exact le_of_lt hlt
          · exact h.1 z hzys
        · exact ih h.2
      · rw [SortedByScoreDesc]
        simp only [insertByScoreDesc, if_neg hlt]
        rw [List.pairwise_cons]
        refine ⟨?_, List.pairwise_cons.mpr h⟩
        intro z hz
        rcases List.mem_cons.mp hz with hzy | hzys
        · rw [hzy]; exact not_lt.mp hlt
        · exact le_trans (h.1 z hzys) (not_lt.mp hlt)

theorem sortByScoreDesc_sorted (l : List BlogPost) :
    SortedByScoreDesc (sortByScoreDesc l) := by
  induction l with
  | nil => simp [sortByScoreDesc, SortedByScoreDesc]
  | cons p ps ih => exact insertByScoreDesc_sorted ih

theorem filter_insertByScoreDesc (x : BlogPost) (k : Int) {l : List BlogPost}
    (h : SortedByScoreDesc l) :
    (insertByScoreDesc x l).filter (fun p => scoreKey p == k) =
      if scoreKey x = k then x :: l.filter (fun p => scoreKey p == k)
      else l.filter (fun p => scoreKey p == k) := by
  induction l with
  | nil =>
      by_cases hxk : scoreKey x = k <;>
        simp [insertByScoreDesc, List.filter_cons, hxk]
  | cons y ys ih =>
      rw [SortedByScoreDesc, List.pairwise_cons] at h
      have hrec := ih h.2
      by_cases hlt : scoreKey x < scoreKey y
      · simp only [insertByScoreDesc, if_pos hlt]
        by_cases hxk : scoreKey x = k
        · have hyk : ¬ scoreKey y = k := by
            intro hy
            rw [hxk] at hlt
            rw [hy] at hlt
            exact lt_irrefl k hlt
          simp [List.filter_cons, beq_iff_eq, hxk, hyk, hrec]
        · simp [List.filter_cons, beq_iff_eq, hxk, hrec]
      · simp only [insertByScoreDesc, if_neg hlt]
        by_cases hxk : scoreKey x = k <;>
          simp [List.filter_cons, beq_iff_eq, hxk]

theorem filter_sortByScoreDesc (k : Int) (l : List BlogPost) :
    (sortByScoreDesc l).filter (fun p => scoreKey p == k) =
      l.filter (fun p => scoreKey p == k) := by
  induction l with
  | nil => rfl
  | cons p ps ih =>
      rw [sortByScoreDesc, filter_insertByScoreDesc p k (sortByScoreDesc_sorted ps)]
      by_cases hpk : scoreKey p = k <;>
        simp [List.filter_cons, hpk, ih]

/-! ## Runs of the scored `handleStart` -/

/-- A post oracle whose draft and score calls both succeed. -/
def PostOracle.Ok (po : PostOracle) : Prop :=
  (∃ c, po.draft = .ok c) ∧ (∃ n, po.score = .ok n)

/-- A post oracle failing with message `e`: the draft call fails with `e`,
or the draft succeeds and the score call fails with `e`. -/
def PostOracle.FailsWith (po : PostOracle) (e : String) : Prop :=
  po.draft = .error e ∨ ((∃ c, po.draft = .ok c) ∧ po.score = .error e)

theorem completePost_eq (po : PostOracle) (p : BlogPost) {c : DraftContent} {sc : Int}
    (hc : po.draft = .ok c) (hsc : po.score = .ok sc) :
    completePost po p =
      { applyDraft p c with
        score := some sc
        imageUrl := some (generateClaymationImage p po.image)
        status := PostStatus.completed } := by
  simp [completePost, hc, hsc, Except.toOption]

theorem completePost_status (po : PostOracle) (p : BlogPost) :
    (completePost po p).status = PostStatus.completed :=
  rfl

theorem processList_status (o : Nat → PostOracle) :
    ∀ (l : List BlogPost) (i : Nat), ∀ p ∈ processList o i l, p.status = PostStatus.completed := by
  intro l
  induction l with
  | nil => intro i p hp; simp [processList] at hp
  | cons q qs ih =>
      intro i p hp
      rcases List.mem_cons.mp hp with h | h
      · rw [h]; exact completePost_status (o i) q
      · exact ih (i + 1) p h

/-- The last state published by the scored draft loop when every remaining
post's oracle succeeds: the review state ranking all processed posts. -/
theorem loopScored_getLastD_ok (o : Nat → PostOracle) (n : Nat) :
    ∀ (todo : List BlogPost) (i : Nat) (s : AppState) (acc : List BlogPost) (d : AppState),
      (∀ j, j < todo.length → (o (i + j)).Ok) →
      ((loopScored o n i s acc todo).getLastD d).step = .review ∧
      ((loopScored o n i s acc todo).getLastD d).posts =
        sortByScoreDesc (acc.reverse ++ processList o i todo) ∧
      ((loopScored o n i s acc todo).getLastD d).progress =
        { current := 100, total := 100, message := "All done! Ranked by Quality Score." } := by
  intro todo
  induction todo with
  | nil =>
      intro i s acc d _
      refine ⟨rfl, ?_, rfl⟩
      simp [loopScored, processList]
  | cons p rest ih =>
      intro i s acc d hok
      obtain ⟨⟨c, hc⟩, ⟨sc, hsc⟩⟩ := hok 0 (Nat.succ_pos _)
      rw [Nat.add_zero] at hc hsc
      have hok2 : ∀ j, j < rest.length → (o (i + 1 + j)).Ok := by
        intro j hj
        have h2 := hok (j + 1) (by simpa using Nat.succ_lt_succ hj)
        rwa [show i + (j + 1) = i + 1 + j from by omega] at h2
      simp only [loopScored, hc, hsc]
      rw [List.getLastD_cons, List.getLastD_cons, List.getLastD_cons]
      obtain ⟨h1, h2, h3⟩ := ih (i + 1) _ _ _ hok2
      refine ⟨h1, ?_, h3⟩
      rw [h2]
      simp [processList, completePost_eq (o i) p hc hsc, List.reverse_cons,
        List.append_assoc]

/-- The last state published by the scored draft loop when the first `k`
remaining posts' oracles succeed and the `k`-th one fails with `e`: the
catch branch has set `step` to `idle` and the error message, while the
posts of the last publish are retained — the processed prefix (completed)
followed by the untouched remainder. -/
theorem loopScored_getLastD_fail (o : Nat → PostOracle) (n : Nat) (e : String) :
    ∀ (k : Nat) (todo : List BlogPost) (i : Nat) (s : AppState) (acc : List BlogPost)
      (d : AppState),
      (∀ j, j < k → (o (i + j)).Ok) →
      (o (i + k)).FailsWith e →
      k < todo.length →
      s.posts = acc.reverse ++ todo →
      ((loopScored o n i s acc todo).getLastD d).step = .idle ∧
      ((loopScored o n i s acc todo).getLastD d).error = some e ∧
      ((loopScored o n i s acc todo).getLastD d).posts =
        acc.reverse ++ processList o i (todo.take k) ++ todo.drop k := by
  intro k
  induction k with
  | zero =>
      intro todo i s acc d _ hfail hlen hposts
      cases todo with
      | nil => simp at hlen
      | cons p rest =>
          rw [Nat.add_zero] at hfail
          rcases hfail with hde | ⟨⟨c, hc⟩, hse⟩
          · simp only [loopScored, hde]
            refine ⟨rfl, rfl, ?_⟩
            simpa [processList] using hposts
          · simp only [loopScored, hc, hse]
            refine ⟨rfl, rfl, ?_⟩
            simpa [processList] using hposts
  | succ k ih =>
      intro todo i s acc d hok hfail hlen hposts
      cases todo with
      | nil => simp at hlen
      | cons p rest =>
          obtain ⟨⟨c, hc⟩, ⟨sc, hsc⟩⟩ := hok 0 (Nat.succ_pos _)
          rw [Nat.add_zero] at hc hsc
          have hok2 : ∀ j, j < k → (o (i + 1 + j)).Ok := by
            intro j hj
            have h2 := hok (j + 1) (Nat.succ_lt_succ hj)
            rwa [show i + (j + 1) = i + 1 + j from by omega] at h2
          have hfail2 : (o (i + 1 + k)).FailsWith e := by
            rwa [show i + (k + 1) = i + 1 + k from by omega] at hfail
          have hlen2 : k < rest.length := by
            simpa using Nat.lt_of_succ_lt_succ hlen
          simp only [loopScored, hc, hsc]
          rw [List.getLastD_cons, List.getLastD_cons, List.getLastD_cons,
            ← completePost_eq (o i) p hc hsc]
          have harr : acc.reverse ++ processList o i ((p :: rest).take (k + 1)) ++
              (p :: rest).drop (k + 1) =
              (completePost (o i) p :: acc).reverse ++
                processList o (i + 1) (rest.take k) ++ rest.drop k := by
            simp [processList, List.reverse_cons, List.append_assoc]
          rw [harr]
          refine ih rest (i + 1) _ _ _ hok2 hfail2 hlen2 ?_
          simp [List.reverse_cons, List.append_assoc]

theorem processList_length (o : Nat → PostOracle) :
    ∀ (l : List BlogPost) (i : Nat), (processList o i l).length = l.length := by
  intro l
  induction l with
  | nil => intro i; rfl
  | cons q qs ih => intro i; simp [processList, ih (i + 1)]

/-- Claim C6: for every successful run of the scored `handleStart`, the
final state is in review with progress 100, and the post list is the
stable descending ranking of the processed posts: sorted descending by
score, a permutation of the processed list, and posts of equal score keep
their processing order (the filter at every score value is unchanged). -/
theorem start_scored_success (o : StartOracle) (ts : List TopicItem)
    (htop : o.topics = .ok ts)
    (hok : ∀ j, j < ts.length → (o.perPost j).Ok) :
    (startFinalScored o).step = .review ∧
    (startFinalScored o).progress.current = 100 ∧
    SortedByScoreDesc (startFinalScored o).posts ∧
    ((startFinalScored o).posts).Perm (processList o.perPost 0 (ts.map mkInitialPost)) ∧
    ∀ k : Int,
      (startFinalScored o).posts.filter (fun p => scoreKey p == k) =
        (processList o.perPost 0 (ts.map mkInitialPost)).filter (fun p => scoreKey p == k) := by
  have hok2 : ∀ j, j < (ts.map mkInitialPost).length → (o.perPost (0 + j)).Ok := by
    intro j hj
    rw [Nat.zero_add]
    exact hok j (by simpa using hj)
  simp only [startFinalScored, startTraceScored, htop]
  rw [List.getLastD_cons, List.getLastD_cons]
  obtain ⟨h1, h2, h3⟩ :=
    loopScored_getLastD_ok o.perPost (ts.map mkInitialPost).length (ts.map mkInitialPost) 0
      (startContentState (ts.map mkInitialPost)) [] (startContentState (ts.map mkInitialPost))
      hok2
  rw [List.reverse_nil, List.nil_append] at h2
  refine ⟨h1, ?_, ?_, ?_, ?_⟩
  · rw [h3]
  · rw [h2]
    exact sortByScoreDesc_sorted _
  · rw [h2]
    exact sortByScoreDesc_perm _
  · intro k
    rw [h2]
    exact filter_sortByScoreDesc k _

/-- Topic item used by concrete runs of the scored `handleStart`. -/
def cTopic0 : TopicItem :=
  { id := "post-0", topic := "agent governance", twist := "microservices redux", title := "A" }

/-- Second topic item used by concrete runs of the scored `handleStart`. -/
def cTopic1 : TopicItem :=
  { id := "post-1", topic := "context windows", twist := "thermodynamics", title := "B" }

/-- Draft content used by concrete runs. -/
def cDraft : DraftContent :=
  { summary := "s", goals := ["g1", "g2", "g3"], conclusion := "c" }

/-- A run oracle whose first post succeeds (draft, score 50, image data)
and whose second post's draft call fails with message `boom`. -/
def cOracleFail : StartOracle :=
  { topics := .ok [cTopic0, cTopic1]
    perPost := fun i =>
      if i = 0 then
        { draft := .ok cDraft, score := .ok 50
          image := some { mimeType := "image/png", data := "AAAA" } }
      else
        { draft := .error "boom", score := .error "boom", image := none } }

/-- Counterexample to claim C1: in this run the first post completes and
the second post's draft call fails; the session does end with `step = idle`
and the error message set, but the posts are retained — the list is
non-empty and still holds a post with status `completed`. -/
theorem start_failure_counterexample :
    (startFinalScored cOracleFail).step = .idle ∧
    (startFinalScored cOracleFail).error = some "boom" ∧
    (startFinalScored cOracleFail).posts ≠ [] ∧
    ∃ p ∈ (startFinalScored cOracleFail).posts, p.status = PostStatus.completed :=
  ⟨by decide, by decide, by decide, by decide⟩

/-- Claim C1 as amended: when a per-post draft or score call fails after
`k` posts have been processed, the session ends with `step = idle` and the
error message set, but the posts of the last publish are retained: the
list still has one entry per topic, the first `k` entries are the
processed posts — all with status `completed` — and the remainder are the
untouched pending posts. -/
theorem start_scored_failure_retains (o : StartOracle) (ts : List TopicItem) (k : Nat)
    (e : String)
    (htop : o.topics = .ok ts)
    (hk : k < ts.length)
    (hok : ∀ j, j < k → (o.perPost j).Ok)
    (hfail : (o.perPost k).FailsWith e) :
    (startFinalScored o).step = .idle ∧
    (startFinalScored o).error = some e ∧
    (startFinalScored o).posts =
      processList o.perPost 0 ((ts.map mkInitialPost).take k) ++
        (ts.map mkInitialPost).drop k ∧
    (startFinalScored o).posts.length = ts.length ∧
    ∀ p ∈ processList o.perPost 0 ((ts.map mkInitialPost).take k),
      p.status = PostStatus.completed := by
  have hok2 : ∀ j, j < k → (o.perPost (0 + j)).Ok := by
    intro j hj
    rw [Nat.zero_add]
    exact hok j hj
  have hfail2 : (o.perPost (0 + k)).FailsWith e := by
    rw [Nat.zero_add]
    exact hfail
  have hlen : k < (ts.map mkInitialPost).length := by simpa using hk
  simp only [startFinalScored, startTraceScored, htop]
  rw [List.getLastD_cons, List.getLastD_cons]
  obtain ⟨h1, h2, h3⟩ :=
    loopScored_getLastD_fail o.perPost (ts.map mkInitialPost).length e k
      (ts.map mkInitialPost) 0 (startContentState (ts.map mkInitialPost)) []
      (startContentState (ts.map mkInitialPost)) hok2 hfail2 hlen
      (by simp [startContentState, startState])
  rw [List.reverse_nil, List.nil_append] at h3
  refine ⟨h1, h2, h3, ?_, processList_status o.perPost _ 0⟩
  rw [h3]
  simp [processList_length, Nat.min_eq_left (le_of_lt hlen)]
  omega

/-- Witness for the amended claim C1 at the concrete failing run: two
topics, post 0 processed, post 1 failing; the final state keeps both posts
and the processed prefix is completed. -/
theorem start_scored_failure_retains_witness :
    (startFinalScored cOracleFail).step = .idle ∧
    (startFinalScored cOracleFail).error = some "boom" ∧
    (startFinalScored cOracleFail).posts.length = 2 ∧
    ∀ p ∈ processList cOracleFail.perPost 0
        (([cTopic0, cTopic1].map mkInitialPost).take 1),
      p.status = PostStatus.completed := by
  have h := start_scored_failure_retains cOracleFail [cTopic0, cTopic1] 1 "boom" rfl
    (by decide)
    (by
      intro j hj
      have hj0 : j = 0 := by omega
      rw [hj0]
      exact ⟨⟨cDraft, rfl⟩, ⟨50, rfl⟩⟩)
    (Or.inl rfl)
  exact ⟨h.1, h.2.1, by simpa using h.2.2.2.1, h.2.2.2.2⟩

/-- A run oracle whose posts all succeed, with scores 1 and 5. -/
def cOracleOk : StartOracle :=
  { topics := .ok [cTopic0, cTopic1]
    perPost := fun i =>
      if i = 0 then
        { draft := .ok cDraft, score := .ok 1, image := none }
      else
        { draft := .ok cDraft, score := .ok 5
          image := some { mimeType := "image/png", data := "BBBB" } } }

/-- Witness for claim C6 at a concrete successful run with scores 1 and 5. -/
theorem start_scored_success_witness :
    (startFinalScored cOracleOk).step = .review ∧
    (startFinalScored cOracleOk).progress.current = 100 ∧
    SortedByScoreDesc (startFinalScored cOracleOk).posts ∧
    (startFinalScored cOracleOk).posts.filter (fun p => scoreKey p == 5) =
      (processList cOracleOk.perPost 0 ([cTopic0, cTopic1].map mkInitialPost)).filter
        (fun p => scoreKey p == 5) := by
  have h := start_scored_success cOracleOk [cTopic0, cTopic1] rfl (by
    intro j hj
    match j, hj with
    | 0, _ => exact ⟨⟨cDraft, rfl⟩, ⟨1, rfl⟩⟩
    | 1, _ => exact ⟨⟨cDraft, rfl⟩, ⟨5, rfl⟩⟩)
  exact ⟨h.1, h.2.1, h.2.2.1, h.2.2.2.2 5⟩

/-! ## Finalization claims -/

/-- Claim C2: for every run of `handleFinalizePost` in which a pipeline
step fails — content expansion or sanitization throwing; the per-goal
image step cannot fail, it degrades to placeholders — the step reverts to
review, the error becomes non-null, and the posts (in particular every
field of the selected post) are exactly as they were before finalize
began. -/
theorem finalize_failure_reverts (o : FinalizeOracle) (s : AppState) (post : BlogPost)
    (hsel : selectedPostOf s = some post)
    (hfail : (∃ e, o.expand = .error e) ∨ (∃ e, o.sanitize = .error e)) :
    (finalizeFinal o s).step = .review ∧
    (finalizeFinal o s).error.isSome = true ∧
    (finalizeFinal o s).posts = s.posts ∧
    (finalizeFinal o s).selectedPostId = s.selectedPostId ∧
    selectedPostOf (finalizeFinal o s) = some post := by
  cases hexp : o.expand with
  | error e =>
      simp only [finalizeFinal, handleFinalizePost, hsel, hexp]
      exact ⟨rfl, rfl, rfl, rfl, hsel⟩
  | ok seeds =>
      cases hsan : o.sanitize with
      | error e =>
          simp only [finalizeFinal, handleFinalizePost, hsel, hexp, hsan]
          exact ⟨rfl, rfl, rfl, rfl, hsel⟩
      | ok ov =>
          rcases hfail with ⟨e, he⟩ | ⟨e, he⟩
          · rw [hexp] at he
            exact absurd he (by simp)
          · rw [hsan] at he
            exact absurd he (by simp)

/-- A finalize oracle whose sanitize call fails. -/
def cFinOracleFail : FinalizeOracle :=
  { expand := .ok [{ title := "t", content := "b", imagePrompt := "ip" }]
    images := fun _ => none
    sanitize := .error "nope" }

/-- Witness for claim C2 at a concrete failing sanitize call. -/
theorem finalize_failure_reverts_witness :
    (finalizeFinal cFinOracleFail wState).step = .review ∧
    (finalizeFinal cFinOracleFail wState).error.isSome = true ∧
    (finalizeFinal cFinOracleFail wState).posts = wState.posts := by
  have h := finalize_failure_reverts cFinOracleFail wState wPost rfl (Or.inr ⟨"nope", rfl⟩)
  exact ⟨h.1, h.2.1, h.2.2.1⟩

/-- Claim C9: a successful `handleFinalizePost` replaces exactly the
positions of the posts list holding the selected post's id by the
finalized post; the length is unchanged and every post with a different id
keeps its record and its position (so the relative order of all posts is
unchanged). -/
theorem finalize_success_frame (o : FinalizeOracle) (s : AppState) (sid : String)
    (post : BlogPost)
    (hsid : s.selectedPostId = some sid)
    (hfind : s.posts.find? (fun p => p.id == sid) = some post)
    (hexp : ∃ seeds, o.expand = .ok seeds)
    (hsan : ∃ ov, o.sanitize = .ok ov) :
    (finalizeFinal o s).step = .published ∧
    (finalizeFinal o s).posts.length = s.posts.length ∧
    (∀ i p, s.posts.get? i = some p → p.id ≠ post.id →
      (finalizeFinal o s).posts.get? i = some p) ∧
    (∀ i p, s.posts.get? i = some p → p.id = post.id →
      (finalizeFinal o s).posts.get? i = some (finalizedPostOf o post)) := by
  obtain ⟨seeds, hexp⟩ := hexp
  obtain ⟨ov, hsan⟩ := hsan
  have hsel : selectedPostOf s = some post := by
    simp [selectedPostOf, hsid, hfind]
  simp only [finalizeFinal, handleFinalizePost, hsel, hexp, hsan]
  refine ⟨rfl, by simp, ?_, ?_⟩
  · intro i p hp hne
    show (s.posts.map _).get? i = some p
    rw [List.get?_map, hp]
    simp [beq_iff_eq, hne]
  · intro i p hp heq
    show (s.posts.map _).get? i = some _
    rw [List.get?_map, hp]
    simp [beq_iff_eq, heq, finalizedPostOf, hexp, hsan, Except.toOption]

/-- A finalize oracle whose expand and sanitize calls succeed. -/
def cFinOracleOk : FinalizeOracle :=
  { expand := .ok [{ title := "gt", content := "gc", imagePrompt := "gp" }]
    images := fun _ => none
    sanitize := .ok {} }

/-- Witness for claim C9 at a concrete successful finalize run. -/
theorem finalize_success_frame_witness :
    (finalizeFinal cFinOracleOk wState).step = .published ∧
    (finalizeFinal cFinOracleOk wState).posts.length = wState.posts.length ∧
    (finalizeFinal cFinOracleOk wState).posts.get? 0 =
      some (finalizedPostOf cFinOracleOk wPost) := by
  have h := finalize_success_frame cFinOracleOk wState "post-1" wPost rfl rfl
    ⟨_, rfl⟩ ⟨_, rfl⟩
  exact ⟨h.1, h.2.1, h.2.2.2 0 wPost rfl rfl⟩

/-! ## Selection claims -/

/-- Counterexample to claim C3: selecting an id that is not among the
posts does not leave `selectedPostId` unchanged — the handler stores the
id unconditionally. -/
theorem select_missing_counterexample :
    (selectPost wState "missing").selectedPostId = some "missing" ∧
    "missing" ∉ wState.posts.map (fun p => p.id) ∧
    (selectPost wState "missing").selectedPostId ≠ wState.selectedPostId :=
  ⟨rfl, by decide, by decide⟩

/-- Claim C3 as amended: the select intent stores the given id in
`selectedPostId` unconditionally — it performs no membership check — and
changes nothing else; only ids of posts rendered from `posts` are issuable
through the review grid, so the guard lives in the caller, not here. -/
theorem selectPost_unconditional (s : AppState) (id : String) :
    (selectPost s id).selectedPostId = some id ∧
    (selectPost s id).posts = s.posts ∧
    (selectPost s id).step = s.step ∧
    (selectPost s id).progress = s.progress ∧
    (selectPost s id).error = s.error :=
  ⟨rfl, rfl, rfl, rfl, rfl⟩

/-! ## Image generation claims -/

/-- Claim C4: during finalization, the image request of each expanded goal
is issued with that goal's own image-generation prompt — the prompts sent
are exactly the goals' `imagePrompt` fields, in order, and a prompt
override always determines the prompt sent. -/
theorem finalize_goal_image_prompts (post : BlogPost) (images : Nat → Option ImagePart)
    (seeds : List ExpandedGoalSeed) :
    (∀ i, (attachGoalImages post images i seeds).map Prod.fst =
      seeds.map (fun g => g.imagePrompt)) ∧
    (∀ pr outc, (generateClaymationImageWithPrompt post (some pr) outc).1 = pr) := by
  constructor
  · induction seeds with
    | nil => intro i; rfl
    | cons g gs ih =>
        intro i
        simp [attachGoalImages, generateClaymationImageWithPrompt, ih (i + 1)]
  · intro pr outc
    rfl

/-- A post oracle with successful draft and score calls but a failed image
call. -/
def cPoNoImage : PostOracle :=
  { draft := .ok cDraft, score := .ok 3, image := none }

/-- Claim C5: the image operation never fails the pipeline — on an image
failure it returns the deterministic placeholder keyed by the post's id
(the same reference for any post with that id), and the per-post
processing still completes the post with that placeholder as its image
reference. -/
theorem image_failure_graceful (post : BlogPost) (po : PostOracle) (c : DraftContent)
    (sc : Int)
    (hd : po.draft = .ok c) (hs : po.score = .ok sc) (hi : po.image = none) :
    generateClaymationImage post none = picsumPlaceholder post.id ∧
    (∀ q : BlogPost, q.id = post.id →
      generateClaymationImage q none = picsumPlaceholder post.id) ∧
    (completePost po post).status = PostStatus.completed ∧
    (completePost po post).imageUrl = some (picsumPlaceholder post.id) := by
  refine ⟨rfl, ?_, rfl, ?_⟩
  · intro q hq
    simp [generateClaymationImage, picsumPlaceholder, hq]
  · rw [completePost_eq po post hd hs, hi]
    rfl

/-- Witness for claim C5 at a concrete post and failing image call. -/
theorem image_failure_graceful_witness :
    generateClaymationImage wPost none = picsumPlaceholder wPost.id ∧
    (completePost cPoNoImage wPost).status = PostStatus.completed ∧
    (completePost cPoNoImage wPost).imageUrl = some (picsumPlaceholder wPost.id) := by
  have h := image_failure_graceful wPost cPoNoImage cDraft 3 rfl rfl rfl
  exact ⟨h.1, h.2.2.1, h.2.2.2⟩

/-! ## The status invariant: no post ever carries status `error` -/

/-- No post of the session has status `error`. -/
def NoErrorStatus (s : AppState) : Prop :=
  ∀ p ∈ s.posts, p.status ≠ PostStatus.error

theorem loopScored_noError (o : Nat → PostOracle) (n : Nat) :
    ∀ (todo : List BlogPost) (i : Nat) (s : AppState) (acc : List BlogPost),
      NoErrorStatus s →
      (∀ p ∈ acc, p.status ≠ PostStatus.error) →
      (∀ p ∈ todo, p.status ≠ PostStatus.error) →
      ∀ t ∈ loopScored o n i s acc todo, NoErrorStatus t := by
  intro todo
  induction todo with
  | nil =>
      intro i s acc _ hacc _ t ht
      simp only [loopScored, List.mem_singleton,
            List.not_mem_nil, or_false] at ht
      rw [ht]
      intro p hp
      have hp2 : p ∈ acc.reverse := (sortByScoreDesc_perm acc.reverse).mem_iff.mp hp
      exact hacc p (List.mem_reverse.mp hp2)
  | cons p rest ih =>
      intro i s acc hs hacc htodo t ht
      have hrest : ∀ q ∈ rest, q.status ≠ PostStatus.error :=
        fun q hq => htodo q (List.mem_cons_of_mem _ hq)
      cases hdraft : (o i).draft with
      | error e =>
          simp only [loopScored, hdraft, List.mem_cons, List.mem_singleton,
            List.not_mem_nil, or_false] at ht
          rcases ht with h | h
          · rw [h]; exact hs
          · rw [h]; exact hs
      | ok c =>
          cases hscore : (o i).score with
          | error e =>
              simp only [loopScored, hdraft, hscore, List.mem_cons,
                List.mem_singleton, List.not_mem_nil, or_false] at ht
              rcases ht with h | h | h
              · rw [h]; exact hs
              · rw [h]; exact hs
              · rw [h]; exact hs
          | ok sc =>
              simp only [loopScored, hdraft, hscore, List.mem_cons] at ht
              have hsC : NoErrorStatus
                  { s with
                    posts := acc.reverse ++
                      { applyDraft p c with
                        score := some sc
                        imageUrl := some (generateClaymationImage p (o i).image)
                        status := PostStatus.completed } :: rest
                    progress := { current := progAt i n, total := 100
                                  message := scoringMsg i } } := by
                intro q hq
                rcases List.mem_append.mp hq with hq2 | hq2
                · exact hacc q (List.mem_reverse.mp hq2)
                · rcases List.mem_cons.mp hq2 with hq3 | hq3
                  · rw [hq3]; simp
                  · exact hrest q hq3
              rcases ht with h | h | h | h
              · rw [h]; exact hs
              · rw [h]; exact hs
              · rw [h]; exact hsC
              · refine ih (i + 1) _ _ hsC ?_ hrest t h
                intro q hq
                rcases List.mem_cons.mp hq with hq2 | hq2
                · rw [hq2]; simp
                · exact hacc q hq2

theorem loopSimple_noError (o : Nat → PostOracleSimple) (n : Nat) :
    ∀ (todo : List BlogPost) (i : Nat) (s : AppState) (acc : List BlogPost),
      NoErrorStatus s →
      (∀ p ∈ acc, p.status ≠ PostStatus.error) →
      (∀ p ∈ todo, p.status ≠ PostStatus.error) →
      ∀ t ∈ loopSimple o n i s acc todo, NoErrorStatus t := by
  intro todo
  induction todo with
  | nil =>
      intro i s acc hs _ _ t ht
      simp only [loopSimple, List.mem_singleton,
            List.not_mem_nil, or_false] at ht
      rw [ht]
      exact hs
  | cons p rest ih =>
      intro i s acc _ hacc htodo t ht
      have hrest : ∀ q ∈ rest, q.status ≠ PostStatus.error :=
        fun q hq => htodo q (List.mem_cons_of_mem _ hq)
      have hsA : NoErrorStatus
          { s with
            posts := acc.reverse ++ { p with status := PostStatus.generating } :: rest
            progress := { current := progAt i n, total := 100
                          message := generatingMsg i n p.title } } := by
        intro q hq
        rcases List.mem_append.mp hq with hq2 | hq2
        · exact hacc q (List.mem_reverse.mp hq2)
        · rcases List.mem_cons.mp hq2 with hq3 | hq3
          · rw [hq3]; simp
          · exact hrest q hq3
      cases hdraft : (o i).draft with
      | error e =>
          simp only [loopSimple, hdraft, List.mem_cons, List.mem_singleton,
            List.not_mem_nil, or_false] at ht
          rcases ht with h | h
          · rw [h]; exact hsA
          · rw [h]; exact hsA
      | ok c =>
          simp only [loopSimple, hdraft, List.mem_cons] at ht
          have hsB : NoErrorStatus
              { s with
                posts := acc.reverse ++
                  { applyDraft { p with status := PostStatus.generating } c with
                    imageUrl := some (generateClaymationImage
                      { p with status := PostStatus.generating } (o i).image)
                    status := PostStatus.completed } :: rest
                progress := { current := progAt i n, total := 100
                              message := generatingMsg i n p.title } } := by
            intro q hq
            rcases List.mem_append.mp hq with hq2 | hq2
            · exact hacc q (List.mem_reverse.mp hq2)
            · rcases List.mem_cons.mp hq2 with hq3 | hq3
              · rw [hq3]; simp
              · exact hrest q hq3
          rcases ht with h | h | h
          · rw [h]; exact hsA
          · rw [h]; exact hsB
          · refine ih (i + 1) _ _ hsB ?_ hrest t h
            intro q hq
            rcases List.mem_cons.mp hq with hq2 | hq2
            · rw [hq2]; simp
            · exact hacc q hq2

theorem startTraceScored_noError (o : StartOracle) :
    ∀ t ∈ startTraceScored o, NoErrorStatus t := by
  intro t ht
  have hinit : ∀ (ts : List TopicItem) (p : BlogPost), p ∈ ts.map mkInitialPost →
      p.status ≠ PostStatus.error := by
    intro ts p hp
    obtain ⟨u, _, hu⟩ := List.mem_map.mp hp
    rw [← hu]
    simp [mkInitialPost]
  cases htop : o.topics with
  | error e =>
      simp only [startTraceScored, htop, List.mem_cons, List.mem_singleton,
            List.not_mem_nil, or_false] at ht
      rcases ht with h | h
      · rw [h]; intro p hp; simp [startState, INITIAL_STATE] at hp
      · rw [h]; intro p hp; simp [startState, INITIAL_STATE] at hp
  | ok ts =>
      simp only [startTraceScored, htop, List.mem_cons] at ht
      have hcontent : NoErrorStatus (startContentState (ts.map mkInitialPost)) := by
        intro p hp
        exact hinit ts p hp
      rcases ht with h | h | h
      · rw [h]; intro p hp; simp [startState, INITIAL_STATE] at hp
      · rw [h]; exact hcontent
      · exact loopScored_noError o.perPost (ts.map mkInitialPost).length
          (ts.map mkInitialPost) 0 _ [] hcontent (by simp) (hinit ts) t h

theorem startTraceSimple_noError (o : StartOracleSimple) :
    ∀ t ∈ startTraceSimple o, NoErrorStatus t := by
  intro t ht
  have hinit : ∀ (ts : List TopicItem) (p : BlogPost), p ∈ ts.map mkInitialPost →
      p.status ≠ PostStatus.error := by
    intro ts p hp
    obtain ⟨u, _, hu⟩ := List.mem_map.mp hp
    rw [← hu]
    simp [mkInitialPost]
  cases htop : o.topics with
  | error e =>
      simp only [startTraceSimple, htop, List.mem_cons, List.mem_singleton,
            List.not_mem_nil, or_false] at ht
      rcases ht with h | h
      · rw [h]; intro p hp; simp [startState, INITIAL_STATE] at hp
      · rw [h]; intro p hp; simp [startState, INITIAL_STATE] at hp
  | ok ts =>
      simp only [startTraceSimple, htop, List.mem_cons] at ht
      have hcontent : NoErrorStatus (startContentState (ts.map mkInitialPost)) := by
        intro p hp
        exact hinit ts p hp
      rcases ht with h | h | h
      · rw [h]; intro p hp; simp [startState, INITIAL_STATE] at hp
      · rw [h]; exact hcontent
      · exact loopSimple_noError o.perPost (ts.map mkInitialPost).length
          (ts.map mkInitialPost) 0 _ [] hcontent (by simp) (hinit ts) t h

theorem handleFinalizePost_noError (o : FinalizeOracle) (s : AppState)
    (hs : NoErrorStatus s) : ∀ t ∈ handleFinalizePost o s, NoErrorStatus t := by
  intro t ht
  cases hsel : selectedPostOf s with
  | none => simp [handleFinalizePost, hsel] at ht
  | some post =>
      have hpost : post.status ≠ PostStatus.error := by
        apply hs post
        unfold selectedPostOf at hsel
        cases hsid : s.selectedPostId with
        | none => rw [hsid] at hsel; simp at hsel
        | some sid =>
            rw [hsid] at hsel
            exact List.mem_of_find?_eq_some hsel
      cases hexp : o.expand with
      | error e =>
          simp only [handleFinalizePost, hsel, hexp, List.mem_cons,
            List.mem_singleton,
            List.not_mem_nil, or_false] at ht
          rcases ht with h | h | h
          · rw [h]; exact hs
          · rw [h]; exact hs
          · rw [h]; exact hs
      | ok seeds =>
          cases hsan : o.sanitize with
          | error e =>
              simp only [handleFinalizePost, hsel, hexp, hsan, List.mem_cons,
                List.mem_singleton,
            List.not_mem_nil, or_false] at ht
              rcases ht with h | h | h | h | h
              · rw [h]; exact hs
              · rw [h]; exact hs
              · rw [h]; exact hs
              · rw [h]; exact hs
              · rw [h]; exact hs
          | ok ov =>
              simp only [handleFinalizePost, hsel, hexp, hsan, List.mem_cons,
                List.mem_singleton,
            List.not_mem_nil, or_false] at ht
              rcases ht with h | h | h | h | h
              · rw [h]; exact hs
              · rw [h]; exact hs
              · rw [h]; exact hs
              · rw [h]; exact hs
              · rw [h]
                intro q hq
                obtain ⟨p2, hp2, hq2⟩ := List.mem_map.mp hq
                rw [← hq2]
                by_cases hid : p2.id == post.id
                · rw [if_pos hid]
                  exact hpost
                · rw [if_neg hid]
                  exact hs p2 hp2

theorem handlePublishSetup_posts (s : AppState) :
    (handlePublishSetup s).posts = s.posts := by
  unfold handlePublishSetup
  cases s.selectedPostId with
  | none => rfl
  | some sid =>
      by_cases h : sid = "" <;> simp [h]

/-- Claim C10: in every reachable session state of either variant, no post
has status `error` — the enum value exists but no operation ever assigns
it. -/
theorem reachable_no_error_status (s : AppState) (h : Reachable s) :
    ∀ p ∈ s.posts, p.status ≠ PostStatus.error := by
  induction h with
  | init => intro p hp; simp [INITIAL_STATE] at hp
  | startScored o prev s hprev hs ih => exact startTraceScored_noError o s hs
  | startSimple o prev s hprev hs ih => exact startTraceSimple_noError o s hs
  | select prev id hprev ih => exact ih
  | finalize o prev s hprev hs ih => exact handleFinalizePost_noError o prev ih s hs
  | publishSetup prev hprev ih =>
      intro p hp
      rw [handlePublishSetup_posts] at hp
      exact ih p hp
  | reset prev hprev ih => intro p hp; simp [INITIAL_STATE] at hp

/-- Witness for claim C10 at a concrete reachable state: the state
published right after topic discovery in a concrete scored run holds the
first pending post, and that post's status is not `error`. -/
theorem reachable_no_error_status_witness :
    (mkInitialPost cTopic0).status ≠ PostStatus.error :=
  reachable_no_error_status (startContentState ([cTopic0, cTopic1].map mkInitialPost))
    (Reachable.startScored cOracleOk INITIAL_STATE _ Reachable.init
      (List.Mem.tail _ (List.Mem.head _)))
    (mkInitialPost cTopic0) (List.Mem.head _)

end Planner
